import Mathlib

/-!
Shallow embedding of the rendering/layout code of jami-cli (src/ui.rs).

Rust strings are modelled as lists of `RChar`: one entry per Unicode scalar
value, carrying its code point, its UTF-8 byte length and its terminal
display width (the value of the unicode-width crate).  Byte indices into a
string, `str::is_char_boundary`, byte slicing and display width are all
definable on this representation.  Fallible operations of the source
(panicking arithmetic such as `%` by zero or `-` below zero on unsigned
integers, out-of-range `Vec` indexing, loops whose termination needs proof)
are modelled in `Option`, with `none` standing for a panic or hang.
-/

/-!
## Definitions (the embedding of src/ui.rs)
-/

/-- One Unicode scalar value of a Rust string: its code point, its UTF-8
byte length, and its terminal display width. -/
structure RChar where
  code : Nat
  bytes : Nat
  width : Nat
  deriving DecidableEq

/-- The facts about UTF-8 and the unicode-width crate that the embedding
relies on: every scalar value occupies 1 to 4 bytes, has display width at
most 2, and a double-width character is at least 3 bytes long (all
double-width code points lie at or above U+1100, beyond the 2-byte range). -/
def ValidChar (c : RChar) : Prop :=
  1 ≤ c.bytes ∧ c.bytes ≤ 4 ∧ c.width ≤ 2 ∧ (c.width = 2 → 3 ≤ c.bytes)

instance (c : RChar) : Decidable (ValidChar c) := by
  unfold ValidChar; infer_instance

/-- A Rust string: a list of scalar values. -/
abbrev RStr := List RChar

/-- An ASCII character (1 byte, display width 1). -/
def asciiChar (code : Nat) : RChar := ⟨code, 1, 1⟩

/-- Embed a Lean string whose characters are all ASCII as an `RStr`. -/
def asciiStr (s : String) : RStr := s.data.map (fun c => asciiChar c.toNat)

/-- Every scalar value of the string satisfies `ValidChar`. -/
def ValidStr (s : RStr) : Prop := ∀ c ∈ s, ValidChar c

instance (s : RStr) : Decidable (ValidStr s) := by
  unfold ValidStr; infer_instance

/-- Rust `str::len`: the UTF-8 byte length. -/
def byteLen (s : RStr) : Nat := (s.map RChar.bytes).sum

/-- Rust `UnicodeWidthStr::width`: the total display width. -/
def strWidth (s : RStr) : Nat := (s.map RChar.width).sum

/-- Rust `str::is_char_boundary i`: `i` is 0, or the exact byte length of a
prefix of whole characters; indices inside a character or past the end of
the string are not boundaries. -/
def isCharBoundary : RStr → Nat → Bool
  | _, 0 => true
  | [], _ + 1 => false
  | c :: cs, i + 1 =>
      if i + 1 < c.bytes then false else isCharBoundary cs (i + 1 - c.bytes)

/-- Byte slicing `&s[0..i]` at a character boundary: the characters whose
bytes lie entirely below `i`. -/
def takeBytes : RStr → Nat → RStr
  | _, 0 => []
  | [], _ + 1 => []
  | c :: cs, i + 1 =>
      if i + 1 < c.bytes then [] else c :: takeBytes cs (i + 1 - c.bytes)

/-- The loop `while !channel_name.is_char_boundary(end) { end += 1 }`
(src/ui.rs lines 54-56), with explicit fuel; `none` models a loop that has
not reached a boundary within the given number of increments. -/
def seekLoop (s : RStr) : Nat → Nat → Option Nat
  | 0, i => if isCharBoundary s i then some i else none
  | fuel + 1, i => if isCharBoundary s i then some i else seekLoop s fuel (i + 1)

/-- The suffix `format!(" ({})", channel.unread_messages)` when the count is non-zero,
else the empty string (src/ui.rs lines 41-45). -/
def unreadMessagesLabel (unread : Nat) : RStr :=
  if unread ≠ 0 then asciiStr (" (" ++ toString unread ++ ")") else []

/-- The channel-label computation of `draw` (src/ui.rs lines 40-58): build
`name ++ unread suffix`; keep it when it fits the interior width or the
suffix is empty; otherwise truncate the name at
`name.width().saturating_sub(diff)` bytes, moved up to the next character
boundary by the seek loop, and re-append the suffix.  `none` models a
non-terminating boundary loop (the fuel `byteLen name` is shown sufficient
for valid strings below). -/
def channelLabel (channelListWidth : Nat) (channelName : RStr) (unread : Nat) :
    Option RStr :=
  let unreadLbl := unreadMessagesLabel unread
  let label := channelName ++ unreadLbl
  let labelWidth := strWidth label
  if labelWidth ≤ channelListWidth ∨ unreadLbl = [] then some label
  else
    match seekLoop channelName (byteLen channelName)
        (strWidth channelName - (labelWidth - channelListWidth)) with
    | some e => some (takeBytes channelName e ++ unreadLbl)
    | none => none

/-- The tui color type (only the variants the file uses). -/
inductive TuiColor
  | Black | Red | Green | Yellow | Blue | Magenta | Cyan | Gray | White
  deriving DecidableEq

/-- The fixed palette of src/ui.rs line 277. -/
def COLORS : List TuiColor :=
  [.Red, .Green, .Yellow, .Blue, .Magenta, .Cyan, .Gray]

/-- The function `user_color` (src/ui.rs lines 275-284): sum every byte modulo the
palette size, take the sum modulo the palette size as the index.  The
username is given as its UTF-8 byte sequence. -/
def user_color (usernameBytes : List Nat) : TuiColor :=
  COLORS.get
    ⟨(usernameBytes.map (fun b => b % COLORS.length)).sum % COLORS.length,
     Nat.mod_lt _ (by decide)⟩

/-- Member roles (crate::util::Role). -/
inductive Role | Admin | Member | Invited
  deriving DecidableEq

/-- A channel member: identity hash and role (presence is looked up
separately and is irrelevant to the claims below). -/
structure ChanMember where
  hash : Nat
  role : Role
  deriving DecidableEq

/-- A message: sender and body.  The arrival timestamp only ever renders
as the fixed-width 6-cell `"HH:MM "` span and is not needed by any claim,
so it is omitted. -/
structure Message where
  msgFrom : RStr
  message : RStr
  deriving DecidableEq

/-- A channel as the UI reads it: `bestname()` result, description,
unread count, messages (oldest first) and members. -/
structure Channel where
  bestname : RStr
  description : RStr
  unread_messages : Nat
  messages : List Message
  members : List ChanMember
  deriving DecidableEq

/-- src/ui.rs lines 14-21: the selected channel exists and has a non-empty
member sequence (`unwrap_or(false)` on a missing selection or index). -/
def has_members (selected : Option Nat) (channels : List Channel) : Bool :=
  (((selected.bind (fun idx => channels.get? idx)).map
    (fun channel => !channel.members.isEmpty)).getD false)

/-- The two constraint lists of src/ui.rs lines 23-32, as numerator /
denominator ratio pairs handed to the layout engine. -/
def layoutRegions (hm : Bool) : List (Nat × Nat) :=
  match hm with
  | false => [(1, 4), (3, 4)]
  | true => [(1, 4), (5, 8), (1, 8)]

/-- src/ui.rs lines 68-70: the member pane is drawn exactly when
`has_members` holds. -/
def membersPaneDrawn (selected : Option Nat) (channels : List Channel) : Bool :=
  has_members selected channels

/-- src/ui.rs line 74: `area.width.saturating_sub(2)`. -/
def text_width (areaWidth : Nat) : Nat := areaWidth - 2

/-- The push `lines.last_mut().unwrap().push(c)` (src/ui.rs line 84): push a
character onto the last line; `none` models the `unwrap` panic on an empty
vector. -/
def pushLast : List (List Char) → Char → Option (List (List Char))
  | [], _ => none
  | [l], c => some [l ++ [c]]
  | l :: l2 :: ls, c => (pushLast (l2 :: ls) c).map (fun r => l :: r)

/-- One step of the fold at src/ui.rs lines 80-86: start a new line when
`idx % text_width == 0`, then push the character onto the last line.
`none` models the division-by-zero panic of `idx % 0`. -/
def inputFoldStep (tw : Nat) (acc : List (List Char)) (idx : Nat) (c : Char) :
    Option (List (List Char)) :=
  if tw = 0 then none
  else pushLast (if idx % tw = 0 then acc ++ [[]] else acc) c

/-- The enumerated fold of src/ui.rs lines 75-86. -/
def inputFold (tw : Nat) : List Char → Nat → List (List Char) →
    Option (List (List Char))
  | [], _, acc => some acc
  | c :: cs, idx, acc => do
      let acc2 ← inputFoldStep tw acc idx c
      inputFold tw cs (idx + 1) acc2

/-- The wrapped input lines (src/ui.rs lines 75-86), from index 0 and an
empty accumulator. -/
def inputLines (tw : Nat) (input : List Char) : Option (List (List Char)) :=
  inputFold tw input 0 []

/-- The count `lines.len().max(1)` (src/ui.rs line 87). -/
def num_input_lines (tw : Nat) (input : List Char) : Option Nat :=
  (inputLines tw input).map (fun lines => max lines.length 1)

/-- The `f.set_cursor` arguments (src/ui.rs lines 112-117), relative to the
input box origin `(boxX, boxY)`:
`x + (input_cursor as u16) % (text_width as u16) + 1` and
`y + (input_cursor as u16) / (text_width as u16) + 1`.  Both `as u16`
casts truncate modulo 2^16 (the cursor, a usize character count, can
exceed it; `text_width` comes from a u16 rect so its cast is lossless);
`none` models the `% 0` / `/ 0` panic. -/
def setCursorCell (boxX boxY tw cursor : Nat) : Option (Nat × Nat) :=
  if tw % 65536 = 0 then none
  else some (boxX + (cursor % 65536) % (tw % 65536) + 1,
             boxY + (cursor % 65536) / (tw % 65536) + 1)

/-- Fixed-size chunking as the spec words it: each chunk holds `tw`
characters except possibly the last. -/
def chunksSpec (tw : Nat) : List Char → List (List Char)
  | [] => []
  | c :: cs =>
      (c :: List.take (tw - 1) cs) :: chunksSpec tw (List.drop (tw - 1) cs)
  termination_by l => l.length
  decreasing_by
    simp only [List.length_drop, List.length_cons]
    omega

/-- src/ui.rs lines 121-128: the selected channel's message slice, or
empty when nothing is selected or the index is out of range
(`.get` + `unwrap_or`). -/
def selectedMessages (selected : Option Nat) (channels : List Channel) :
    List Message :=
  (((selected.bind (fun idx => channels.get? idx)).map
    (fun channel => channel.messages)).getD [])

/-- The subtraction `area.width - 2` on u16 (src/ui.rs line 149): plain subtraction, which
underflows when the pane width is below 2; `none` models that underflow. -/
def messagesInteriorWidth (areaWidth : Nat) : Option Nat :=
  if areaWidth < 2 then none else some (areaWidth - 2)

/-- The lookup `name.find(' ').unwrap_or_else(|| name.len())` (src/ui.rs line 288):
the byte index of the first space, or the byte length when there is none. -/
def spacePos (name : RStr) : Nat :=
  byteLen (name.takeWhile (fun c => c.code ≠ 32))

/-- The function `displayed_name` (src/ui.rs lines 286-293): the byte slice up to the
first space when `first_name_only`, else the whole name. -/
def displayed_name (name : RStr) (first_name_only : Bool) : RStr :=
  if first_name_only then takeBytes name (spacePos name) else name

/-- The value `max_username_width` (src/ui.rs lines 130-134): the maximum display
width of the first names of ALL messages of the channel
(`.max().unwrap_or(0)`). -/
def max_username_width (messages : List Message) : Nat :=
  ((messages.map
    (fun msg => strWidth (displayed_name msg.msgFrom true))).foldr max 0)

/-- The same maximum but over only the shown messages (the at most
`max_lines` newest ones), which is how the spec words it. -/
def maxUsernameWidthShown (messages : List Message) (max_lines : Nat) : Nat :=
  (((messages.reverse.take max_lines).map
    (fun msg => strWidth (displayed_name msg.msgFrom true))).foldr max 0)

/-- The slice `messages.iter().rev().take(max_lines)` (src/ui.rs lines 153-157):
the rendered messages, newest first. -/
def shownMessages (messages : List Message) (max_lines : Nat) : List Message :=
  messages.reverse.take max_lines

/-- The dash character `'-'`. -/
def dashChar : RChar := asciiChar 45

/-- The divider `new_message_line` (src/ui.rs lines 202-205):
`"-".repeat(prefix_width) + "new messages" +
"-".repeat((width as usize).saturating_sub(prefix_width))` with
`prefix_width = max_username_width + 8`. -/
def new_message_line (width maxUserWidth : Nat) : RStr :=
  List.replicate (maxUserWidth + 8) dashChar ++ asciiStr "new messages" ++
    List.replicate (width - (maxUserWidth + 8)) dashChar

/-- The divider content as the claim words it: the right-hand dash count
is `interior − k − len("new messages")`, clamped at zero, with
`k = max_username_width + 8`. -/
def newMessageLineClaim (width maxUserWidth : Nat) : RStr :=
  List.replicate (maxUserWidth + 8) dashChar ++ asciiStr "new messages" ++
    List.replicate (width - (maxUserWidth + 8) - 12) dashChar

/-- src/ui.rs lines 199-209: read the selected channel's unread count by
direct indexing (`none` models the panic when the selection index is out of
range), and insert the divider at position `unread_messages` exactly when
`0 < unread < items.len()`. -/
def insertNewMessageLine {α : Type} (selected : Option Nat)
    (channels : List Channel) (divider : α) (items : List α) :
    Option (List α) :=
  match selected with
  | none => some items
  | some idx =>
    match channels.get? idx with
    | none => none
    | some channel =>
      if 0 < channel.unread_messages ∧ channel.unread_messages < items.length
      then some (items.take channel.unread_messages ++
                 divider :: items.drop channel.unread_messages)
      else some items

/-- The divider stage of `draw_messages` as wired in the source
(src/ui.rs lines 130-134 with 199-208): the divider text is built from the
interior width and the `max_username_width` of the selected channel's
messages, and inserted into the rendered item list. -/
def dividerStage (selected : Option Nat) (channels : List Channel)
    (width : Nat) (items : List RStr) : Option (List RStr) :=
  insertNewMessageLine selected channels
    (new_message_line width
      (max_username_width (selectedMessages selected channels)))
    items

/-!
## Lemmas and claim theorems
-/

theorem byteLen_nil : byteLen [] = 0 := rfl

theorem byteLen_cons (c : RChar) (cs : RStr) :
    byteLen (c :: cs) = c.bytes + byteLen cs := by
  simp [byteLen, List.map_cons, List.sum_cons]

theorem strWidth_nil : strWidth [] = 0 := rfl

theorem strWidth_cons (c : RChar) (cs : RStr) :
    strWidth (c :: cs) = c.width + strWidth cs := by
  simp [strWidth, List.map_cons, List.sum_cons]

theorem strWidth_append (s t : RStr) :
    strWidth (s ++ t) = strWidth s + strWidth t := by
  induction s with
  | nil => simp [strWidth]
  | cons c cs ih =>
      rw [List.cons_append, strWidth_cons, strWidth_cons, ih, Nat.add_assoc]

/-- Display width never exceeds UTF-8 byte length (per character:
width 0 or 1 needs at least 1 byte, width 2 needs at least 3). -/
theorem strWidth_le_byteLen (s : RStr) (h : ValidStr s) :
    strWidth s ≤ byteLen s := by
  induction s with
  | nil => exact Nat.le_refl 0
  | cons c cs ih =>
      have hc : ValidChar c := h c (List.mem_cons_self c cs)
      have hcs : ValidStr cs := fun x hx => h x (List.mem_cons_of_mem c hx)
      rw [strWidth_cons, byteLen_cons]
      apply Nat.add_le_add _ (ih hcs)
      rcases hc with ⟨h1, _, h2le, h2⟩
      interval_cases hw : c.width
      · exact Nat.zero_le _
      · exact h1
      · exact Nat.le_trans (by omega) (h2 rfl)

/-- The byte length of a string is always a character boundary. -/
theorem isCharBoundary_byteLen (s : RStr) (h : ValidStr s) :
    isCharBoundary s (byteLen s) = true := by
  induction s with
  | nil => rfl
  | cons c cs ih =>
      have hc : ValidChar c := h c (List.mem_cons_self c cs)
      have hcs : ValidStr cs := fun x hx => h x (List.mem_cons_of_mem c hx)
      have h1 : 1 ≤ c.bytes := hc.1
      rw [byteLen_cons]
      have hpos : 0 < c.bytes + byteLen cs := by omega
      obtain ⟨k, hk⟩ : ∃ k, c.bytes + byteLen cs = k + 1 :=
        ⟨c.bytes + byteLen cs - 1, by omega⟩
      rw [hk]
      show isCharBoundary (c :: cs) (k + 1) = true
      unfold isCharBoundary
      have hnot : ¬ (k + 1 < c.bytes) := by omega
      simp only [hnot, if_false]
      have : k + 1 - c.bytes = byteLen cs := by omega
      rw [this]
      exact ih hcs

/-- With `byteLen s - i` fuel available, the boundary-seeking loop reaches
a character boundary: every index up to the byte length is at most one
character away from one, and the byte length itself is a boundary. -/
theorem seekLoop_finds (s : RStr) (h : ValidStr s) :
    ∀ fuel i, i ≤ byteLen s → byteLen s - i ≤ fuel →
      ∃ e, seekLoop s fuel i = some e ∧ i ≤ e ∧ e ≤ byteLen s ∧
        isCharBoundary s e = true := by
  intro fuel
  induction fuel with
  | zero =>
      intro i h1 h2
      have hi : i = byteLen s := by omega
      subst hi
      refine ⟨byteLen s, ?_, Nat.le_refl _, Nat.le_refl _,
        isCharBoundary_byteLen s h⟩
      simp [seekLoop, isCharBoundary_byteLen s h]
  | succ fuel ih =>
      intro i h1 h2
      by_cases hb : isCharBoundary s i = true
      · exact ⟨i, by simp [seekLoop, hb], Nat.le_refl _, h1, hb⟩
      · have hne : i ≠ byteLen s := by
          intro he; exact hb (he ▸ isCharBoundary_byteLen s h)
        obtain ⟨e, he, hie, hle, hbb⟩ :=
          ih (i + 1) (by omega) (by omega)
        refine ⟨e, ?_, by omega, hle, hbb⟩
        simp [seekLoop, hb, he]

/-- Slicing at a character boundary takes exactly that many bytes. -/
theorem byteLen_takeBytes (s : RStr) :
    ∀ i, isCharBoundary s i = true → byteLen (takeBytes s i) = i := by
  induction s with
  | nil =>
      intro i hi
      cases i with
      | zero => rfl
      | succ k => simp [isCharBoundary] at hi
  | cons c cs ih =>
      intro i hi
      cases i with
      | zero => rfl
      | succ k =>
        rw [isCharBoundary] at hi
        by_cases hlt : k + 1 < c.bytes
        · simp [hlt] at hi
        · simp only [hlt, if_false] at hi
          rw [takeBytes, if_neg hlt, byteLen_cons, ih _ hi]
          omega

/-- Slicing at the byte position of the first space yields exactly the
characters before the first space. -/
theorem takeBytes_spacePos (s : RStr) (h : ValidStr s) :
    takeBytes s (spacePos s) = s.takeWhile (fun c => c.code ≠ 32) := by
  induction s with
  | nil => rfl
  | cons c cs ih =>
      have hc : ValidChar c := h c (List.mem_cons_self c cs)
      have hcs : ValidStr cs := fun x hx => h x (List.mem_cons_of_mem c hx)
      by_cases hsp : c.code = 32
      · simp [spacePos, List.takeWhile_cons, hsp, byteLen_nil, takeBytes]
      · have hTW : (c :: cs).takeWhile (fun x => decide (x.code ≠ 32)) =
            c :: cs.takeWhile (fun x => decide (x.code ≠ 32)) := by
          simp [List.takeWhile_cons, hsp]
        have hlen : spacePos (c :: cs) = c.bytes + spacePos cs := by
          simp only [spacePos, hTW, byteLen_cons]
        rw [hlen]
        have h1 : 1 ≤ c.bytes := hc.1
        obtain ⟨k, hk⟩ : ∃ k, c.bytes + spacePos cs = k + 1 :=
          ⟨c.bytes + spacePos cs - 1, by omega⟩
        rw [hk]
        rw [takeBytes, if_neg (by omega)]
        have hrest : k + 1 - c.bytes = spacePos cs := by omega
        rw [hrest, ih hcs]
        exact hTW.symm

/-- The display width of a run of dashes is its length. -/
theorem strWidth_replicate_dash (n : Nat) :
    strWidth (List.replicate n dashChar) = n := by
  induction n with
  | zero => rfl
  | succ k ih =>
      rw [List.replicate_succ, strWidth_cons, ih]
      simp [dashChar, asciiChar]
      omega

/-- Definitional unfolding of `channelLabel`. -/
theorem channelLabel_eq (w : Nat) (name : RStr) (u : Nat) :
    channelLabel w name u =
      if strWidth (name ++ unreadMessagesLabel u) ≤ w ∨
          unreadMessagesLabel u = []
      then some (name ++ unreadMessagesLabel u)
      else
        match seekLoop name (byteLen name)
            (strWidth name - (strWidth (name ++ unreadMessagesLabel u) - w)) with
        | some e => some (takeBytes name e ++ unreadMessagesLabel u)
        | none => none := rfl

/-- Claim C10: the boundary-seeking loop of the channel-label truncation
terminates.  For every valid channel name and every overflow `diff`, the
starting index `name.width().saturating_sub(diff)` never exceeds the
name's byte length (display width never exceeds UTF-8 byte length), the
byte length itself is a character boundary, and with `byteLen name` fuel
the loop reaches a boundary. -/
theorem boundary_loop_terminates (channelName : RStr) (diff : Nat)
    (h : ValidStr channelName) :
    strWidth channelName - diff ≤ byteLen channelName ∧
    ∃ e, seekLoop channelName (byteLen channelName)
        (strWidth channelName - diff) = some e ∧
      e ≤ byteLen channelName ∧ isCharBoundary channelName e = true := by
  have hle : strWidth channelName - diff ≤ byteLen channelName :=
    Nat.le_trans (Nat.sub_le _ _) (strWidth_le_byteLen channelName h)
  obtain ⟨e, he, _, hle2, hb⟩ :=
    seekLoop_finds channelName h (byteLen channelName) _ hle (by omega)
  exact ⟨hle, e, he, hle2, hb⟩

/-- Witness for C10 at a concrete double-width name (two CJK characters,
6 bytes, display width 4) and overflow 3: the loop starts at index 1,
inside the first character, and stops at the boundary 3. -/
theorem boundary_loop_terminates_witness :
    ValidStr [⟨26085, 3, 2⟩, ⟨26412, 3, 2⟩] ∧
    (strWidth [⟨26085, 3, 2⟩, ⟨26412, 3, 2⟩] - 3 ≤
        byteLen [⟨26085, 3, 2⟩, ⟨26412, 3, 2⟩] ∧
      ∃ e, seekLoop [⟨26085, 3, 2⟩, ⟨26412, 3, 2⟩]
          (byteLen [⟨26085, 3, 2⟩, ⟨26412, 3, 2⟩])
          (strWidth [⟨26085, 3, 2⟩, ⟨26412, 3, 2⟩] - 3) = some e ∧
        e ≤ byteLen [⟨26085, 3, 2⟩, ⟨26412, 3, 2⟩] ∧
        isCharBoundary [⟨26085, 3, 2⟩, ⟨26412, 3, 2⟩] e = true) :=
  ⟨by decide, boundary_loop_terminates [⟨26085, 3, 2⟩, ⟨26412, 3, 2⟩] 3 (by decide)⟩

/-- Claim C3: the channel-label computation never fails on valid UTF-8:
when the label fits or the unread suffix is empty, the label passes
through unmodified; otherwise the name is sliced at a character boundary
(the slice holds exactly the boundary's bytes, so no code point is split)
and the unread suffix is re-appended verbatim at the end. -/
theorem channel_label_truncation (channelListWidth : Nat) (channelName : RStr)
    (unread : Nat) (h : ValidStr channelName) :
    ∃ label, channelLabel channelListWidth channelName unread = some label ∧
      ((strWidth (channelName ++ unreadMessagesLabel unread) ≤ channelListWidth ∨
          unreadMessagesLabel unread = []) →
        label = channelName ++ unreadMessagesLabel unread) ∧
      (¬ strWidth (channelName ++ unreadMessagesLabel unread) ≤ channelListWidth →
        unreadMessagesLabel unread ≠ [] →
        ∃ e, isCharBoundary channelName e = true ∧
          byteLen (takeBytes channelName e) = e ∧
          label = takeBytes channelName e ++ unreadMessagesLabel unread) := by
  by_cases hfit : strWidth (channelName ++ unreadMessagesLabel unread) ≤
      channelListWidth ∨ unreadMessagesLabel unread = []
  · refine ⟨channelName ++ unreadMessagesLabel unread, ?_, fun _ => rfl, ?_⟩
    · rw [channelLabel_eq, if_pos hfit]
    · intro hnf hne
      rcases hfit with hfit | hfit
      · exact absurd hfit hnf
      · exact absurd hfit hne
  · have hle : strWidth channelName -
        (strWidth (channelName ++ unreadMessagesLabel unread) - channelListWidth) ≤
        byteLen channelName :=
      Nat.le_trans (Nat.sub_le _ _) (strWidth_le_byteLen channelName h)
    obtain ⟨e, he, _, _, hb⟩ :=
      seekLoop_finds channelName h (byteLen channelName) _ hle (by omega)
    refine ⟨takeBytes channelName e ++ unreadMessagesLabel unread, ?_, ?_, ?_⟩
    · rw [channelLabel_eq, if_neg hfit, he]
    · intro hf; exact absurd hf hfit
    · intro _ _
      exact ⟨e, hb, byteLen_takeBytes channelName e hb, rfl⟩

/-- Witness for C3 at the concrete overflowing label: name `"abcdefgh"`,
unread count 2, interior width 5. -/
theorem channel_label_truncation_witness :
    ∃ label, channelLabel 5 (asciiStr "abcdefgh") 2 = some label ∧
      ((strWidth (asciiStr "abcdefgh" ++ unreadMessagesLabel 2) ≤ 5 ∨
          unreadMessagesLabel 2 = []) →
        label = asciiStr "abcdefgh" ++ unreadMessagesLabel 2) ∧
      (¬ strWidth (asciiStr "abcdefgh" ++ unreadMessagesLabel 2) ≤ 5 →
        unreadMessagesLabel 2 ≠ [] →
        ∃ e, isCharBoundary (asciiStr "abcdefgh") e = true ∧
          byteLen (takeBytes (asciiStr "abcdefgh") e) = e ∧
          label = takeBytes (asciiStr "abcdefgh") e ++ unreadMessagesLabel 2) :=
  channel_label_truncation 5 (asciiStr "abcdefgh") 2 (by decide)

/-- Claim C1, counterexample: a channel whose name is 10 cells wide with
no unread messages, in a channel list of interior width 3, renders its
label unmodified at display width 10 — a rendered line wider than its
column's interior width. -/
theorem rendered_line_width_cex :
    channelLabel 3 (List.replicate 10 (asciiChar 97)) 0 =
      some (List.replicate 10 (asciiChar 97)) ∧
    ¬ strWidth (List.replicate 10 (asciiChar 97)) ≤ 3 := by
  exact ⟨rfl, by decide⟩

/-- Pushing onto the last line of a non-empty accumulator succeeds and
extends exactly the last line. -/
theorem pushLast_snoc (acc : List (List Char)) (l : List Char) (c : Char) :
    pushLast (acc ++ [l]) c = some (acc ++ [l ++ [c]]) := by
  induction acc with
  | nil => rfl
  | cons a acc ih =>
      cases acc with
      | nil => rfl
      | cons b rest =>
          show (pushLast ((b :: rest) ++ [l]) c).map (fun r => a :: r) = _
          rw [ih]
          rfl

/-- Definitional unfolding of `inputFold` on a cons cell. -/
theorem inputFold_cons (tw : Nat) (c : Char) (cs : List Char) (idx : Nat)
    (acc : List (List Char)) :
    inputFold tw (c :: cs) idx acc =
      (inputFoldStep tw acc idx c).bind
        (fun acc2 => inputFold tw cs (idx + 1) acc2) := rfl

/-- The enumerated fold of the input-box wrapping produces exactly the
fixed-size chunks: started at a chunk boundary it appends `chunksSpec`,
and mid-chunk (with `r` free slots in the current chunk) it first fills
the current chunk. -/
theorem inputFold_chunks (tw : Nat) (htw : 1 ≤ tw) :
    ∀ n (cs : List Char), cs.length ≤ n →
      (∀ idx acc, idx % tw = 0 →
        inputFold tw cs idx acc = some (acc ++ chunksSpec tw cs)) ∧
      (∀ idx acc cur r, idx % tw + r = tw → 1 ≤ r → r < tw →
        inputFold tw cs idx (acc ++ [cur]) =
          some (acc ++ (cur ++ cs.take r) :: chunksSpec tw (cs.drop r))) := by
  intro n
  induction n with
  | zero =>
      intro cs hlen
      have hnil : cs = [] := List.length_eq_zero.mp (Nat.le_zero.mp hlen)
      subst hnil
      constructor
      · intro idx acc _; simp [inputFold, chunksSpec]
      · intro idx acc cur r _ _ _; simp [inputFold, chunksSpec]
  | succ n ih =>
      intro cs hlen
      cases cs with
      | nil =>
          constructor
          · intro idx acc _; simp [inputFold, chunksSpec]
          · intro idx acc cur r _ _ _; simp [inputFold, chunksSpec]
      | cons c cs' =>
          have hlen' : cs'.length ≤ n := by
            simp only [List.length_cons] at hlen; omega
          constructor
          · intro idx acc hidx
            rw [inputFold_cons]
            have hstep : inputFoldStep tw acc idx c = some (acc ++ [[c]]) := by
              unfold inputFoldStep
              rw [if_neg (by omega), if_pos hidx]
              simpa using pushLast_snoc acc [] c
            rw [hstep, Option.some_bind]
            rcases Nat.lt_or_ge 1 tw with htw2 | htw1
            · have hmod : (idx + 1) % tw = 1 := by
                conv_lhs => rw [Nat.add_mod, hidx, Nat.zero_add]
                rw [Nat.mod_mod_of_dvd]
                · exact Nat.mod_eq_of_lt htw2
                · exact Nat.dvd_refl tw
              have hG := (ih cs' hlen').2 (idx + 1) acc [c] (tw - 1)
                (by omega) (by omega) (by omega)
              rw [hG, chunksSpec]
              simp
            · have htw1' : tw = 1 := by omega
              subst htw1'
              have hL := (ih cs' hlen').1 (idx + 1) (acc ++ [[c]]) (Nat.mod_one _)
              rw [hL, chunksSpec]
              simp
          · intro idx acc cur r hsum h1 hr
            rw [inputFold_cons]
            have hmodne : idx % tw ≠ 0 := by omega
            have hstep : inputFoldStep tw (acc ++ [cur]) idx c =
                some (acc ++ [cur ++ [c]]) := by
              unfold inputFoldStep
              rw [if_neg (by omega), if_neg hmodne]
              exact pushLast_snoc acc cur c
            rw [hstep, Option.some_bind]
            rcases Nat.lt_or_ge 1 r with hr2 | hr1
            · have hmod : (idx + 1) % tw = tw - (r - 1) := by
                conv_lhs => rw [Nat.add_mod]
                have h1m : 1 % tw = 1 := Nat.mod_eq_of_lt (by omega)
                rw [h1m]
                have heq : idx % tw + 1 = tw - (r - 1) := by omega
                rw [heq]
                exact Nat.mod_eq_of_lt (by omega)
              have hG := (ih cs' hlen').2 (idx + 1) acc (cur ++ [c]) (r - 1)
                (by omega) (by omega) (by omega)
              rw [hG]
              obtain ⟨r', hr'⟩ : ∃ r', r = r' + 1 := ⟨r - 1, by omega⟩
              subst hr'
              simp [List.take_succ_cons, List.drop_succ_cons]
            · have hr1' : r = 1 := by omega
              subst hr1'
              have hmod : (idx + 1) % tw = 0 := by
                have heq : idx % tw = tw - 1 := by omega
                conv_lhs => rw [Nat.add_mod, heq]
                have h1m : 1 % tw = 1 := Nat.mod_eq_of_lt (by omega)
                rw [h1m]
                have heq2 : tw - 1 + 1 = tw := by omega
                rw [heq2, Nat.mod_self]
              have hL := (ih cs' hlen').1 (idx + 1) (acc ++ [cur ++ [c]]) hmod
              rw [hL]
              simp

/-- The number of fixed-size chunks is the character count divided by the
chunk size, rounded up. -/
theorem chunksSpec_length (tw : Nat) (htw : 1 ≤ tw) :
    ∀ n (l : List Char), l.length ≤ n →
      (chunksSpec tw l).length = (l.length + tw - 1) / tw := by
  intro n
  induction n with
  | zero =>
      intro l hl
      have hnil : l = [] := List.length_eq_zero.mp (Nat.le_zero.mp hl)
      subst hnil
      simp [chunksSpec, Nat.div_eq_of_lt (show tw - 1 < tw by omega)]
  | succ n ih =>
      intro l hl
      cases l with
      | nil => simp [chunksSpec, Nat.div_eq_of_lt (show tw - 1 < tw by omega)]
      | cons c cs =>
          rw [chunksSpec]
          simp only [List.length_cons]
          have hdlen : (cs.drop (tw - 1)).length = cs.length - (tw - 1) :=
            List.length_drop _ _
          rw [ih (cs.drop (tw - 1))
            (by rw [hdlen]; simp only [List.length_cons] at hl; omega), hdlen]
          rcases Nat.lt_or_ge cs.length (tw - 1) with hlt | hge
          · have hnum1 : cs.length - (tw - 1) + tw - 1 = tw - 1 := by omega
            have hnum2 : cs.length + 1 + tw - 1 = cs.length + tw := by omega
            rw [hnum1, hnum2, Nat.div_eq_of_lt (show tw - 1 < tw by omega),
              Nat.add_div_right _ (by omega),
              Nat.div_eq_of_lt (show cs.length < tw by omega)]
          · have hnum1 : cs.length - (tw - 1) + tw - 1 = cs.length := by omega
            have hnum2 : cs.length + 1 + tw - 1 = cs.length + tw := by omega
            rw [hnum1, hnum2, Nat.add_div_right _ (by omega)]

/-- The chunks concatenate back to the input. -/
theorem chunksSpec_flatten (tw : Nat) :
    ∀ n (l : List Char), l.length ≤ n → (chunksSpec tw l).flatten = l := by
  intro n
  induction n with
  | zero =>
      intro l hl
      have hnil : l = [] := List.length_eq_zero.mp (Nat.le_zero.mp hl)
      subst hnil; simp [chunksSpec]
  | succ n ih =>
      intro l hl
      cases l with
      | nil => simp [chunksSpec]
      | cons c cs =>
          rw [chunksSpec, List.flatten_cons,
            ih (cs.drop (tw - 1))
              (by rw [List.length_drop]; simp only [List.length_cons] at hl; omega)]
          simp [List.take_append_drop]

/-- Every chunk except possibly the last holds exactly `tw` characters. -/
theorem chunksSpec_dropLast_length (tw : Nat) (htw : 1 ≤ tw) :
    ∀ n (l : List Char), l.length ≤ n →
      ∀ chunk ∈ (chunksSpec tw l).dropLast, chunk.length = tw := by
  intro n
  induction n with
  | zero =>
      intro l hl chunk hc
      have hnil : l = [] := List.length_eq_zero.mp (Nat.le_zero.mp hl)
      subst hnil; simp [chunksSpec] at hc
  | succ n ih =>
      intro l hl chunk hc
      cases l with
      | nil => simp [chunksSpec] at hc
      | cons c cs =>
          rw [chunksSpec] at hc
          cases hrest : chunksSpec tw (cs.drop (tw - 1)) with
          | nil => rw [hrest] at hc; simp at hc
          | cons y ys =>
              rw [hrest, List.dropLast_cons_of_ne_nil (List.cons_ne_nil y ys)]
                at hc
              have hne : cs.drop (tw - 1) ≠ [] := by
                intro h0
                rw [h0] at hrest
                simp [chunksSpec] at hrest
              have hlen2 : tw - 1 ≤ cs.length := by
                by_contra hcon
                exact hne (List.drop_eq_nil_iff.mpr (by omega))
              rcases List.mem_cons.mp hc with hc | hc
              · subst hc
                simp only [List.length_cons, List.length_take]
                omega
              · rw [← hrest] at hc
                exact ih (cs.drop (tw - 1))
                  (by rw [List.length_drop]; simp only [List.length_cons] at hl
                      omega) chunk hc

/-- Claim C4: for `text_width ≥ 1`, the input fold never panics and
splits the input into chunks that start exactly at the multiples of
`text_width`: all chunks except possibly the last hold exactly
`text_width` characters, their concatenation is the input, and the number
of input lines is `ceil(length / text_width)`, or 1 for an empty input. -/
theorem input_wrapping (tw : Nat) (input : List Char) (htw : 1 ≤ tw) :
    inputLines tw input = some (chunksSpec tw input) ∧
    (chunksSpec tw input).flatten = input ∧
    (∀ chunk ∈ (chunksSpec tw input).dropLast, chunk.length = tw) ∧
    num_input_lines tw input =
      some (if input = [] then 1 else (input.length + tw - 1) / tw) := by
  have hIL : inputLines tw input = some (chunksSpec tw input) := by
    unfold inputLines
    have h0 := (inputFold_chunks tw htw input.length input (Nat.le_refl _)).1
      0 [] (Nat.zero_mod tw)
    simpa using h0
  refine ⟨hIL, chunksSpec_flatten tw input.length input (Nat.le_refl _),
    chunksSpec_dropLast_length tw htw input.length input (Nat.le_refl _), ?_⟩
  unfold num_input_lines
  rw [hIL]
  simp only [Option.map_some']
  congr 1
  rw [chunksSpec_length tw htw input.length input (Nat.le_refl _)]
  cases input with
  | nil =>
      rw [if_pos rfl]
      simp only [List.length_nil, Nat.zero_add]
      rw [Nat.div_eq_of_lt (show tw - 1 < tw by omega)]
      rfl
  | cons c cs =>
      rw [if_neg (List.cons_ne_nil c cs)]
      simp only [List.length_cons]
      have h1 : 1 ≤ (cs.length + 1 + tw - 1) / tw := by
        rw [Nat.le_div_iff_mul_le (by omega)]
        omega
      omega

/-- Witness for C4 at `text_width = 3` and input `"abcdefgh"`. -/
theorem input_wrapping_witness :
    inputLines 3 "abcdefgh".data = some (chunksSpec 3 "abcdefgh".data) ∧
    (chunksSpec 3 "abcdefgh".data).flatten = "abcdefgh".data ∧
    (∀ chunk ∈ (chunksSpec 3 "abcdefgh".data).dropLast, chunk.length = 3) ∧
    num_input_lines 3 "abcdefgh".data =
      some (if "abcdefgh".data = [] then 1
            else ("abcdefgh".data.length + 3 - 1) / 3) :=
  input_wrapping 3 "abcdefgh".data (by decide)

/-- Claim C2 (the code panics instead of degrading): with a chat pane of
width 2 the interior `text_width` is 0 and the input fold evaluates
`idx % 0` (division by zero) on any non-empty input, and `set_cursor`
always evaluates `cursor % 0`; a message pane of width 1 underflows
`area.width - 2` on u16; and an out-of-range channel-selection index makes
the unread-count lookup `items[selected_idx]` index outside the channel
sequence.  Each failure is modelled by `none`. -/
theorem draw_pass_failure_modes :
    text_width 2 = 0 ∧
    inputLines (text_width 2) ['a'] = none ∧
    setCursorCell 0 0 (text_width 2) 0 = none ∧
    messagesInteriorWidth 1 = none ∧
    insertNewMessageLine (some 1) ([⟨[], [], 0, [], []⟩] : List Channel)
      ([] : RStr) ([] : List RStr) = none := by
  decide

/-- Claim C1 (amended): rendered lines are not universally bounded by the
column interior width.  What holds: a channel label whose full label fits,
or whose unread suffix is empty, passes through unmodified (so it fits
exactly when the original label fits, and otherwise overflows and is
clipped by the rendering toolkit); and the synthetic divider line always
has display width at least the interior width plus the length of
"new messages". -/
theorem rendered_line_width_amended (channelListWidth : Nat)
    (channelName : RStr) (unread : Nat) (width maxUserWidth : Nat) :
    (strWidth (channelName ++ unreadMessagesLabel unread) ≤ channelListWidth →
      channelLabel channelListWidth channelName unread =
        some (channelName ++ unreadMessagesLabel unread)) ∧
    (unreadMessagesLabel unread = [] →
      channelLabel channelListWidth channelName unread =
        some (channelName ++ unreadMessagesLabel unread)) ∧
    width + 12 ≤ strWidth (new_message_line width maxUserWidth) := by
  refine ⟨fun hf => ?_, fun he => ?_, ?_⟩
  · rw [channelLabel_eq, if_pos (Or.inl hf)]
  · rw [channelLabel_eq, if_pos (Or.inr he)]
  · unfold new_message_line
    rw [strWidth_append, strWidth_append, strWidth_replicate_dash,
      strWidth_replicate_dash]
    have h12 : strWidth (asciiStr "new messages") = 12 := by decide
    rw [h12]
    omega

/-- Witness for the amended C1: a fitting label passes through, and the
divider at interior width 30 is at least 42 cells wide. -/
theorem rendered_line_width_amended_witness :
    (strWidth (asciiStr "ab" ++ unreadMessagesLabel 0) ≤ 5 ∧
      channelLabel 5 (asciiStr "ab") 0 =
        some (asciiStr "ab" ++ unreadMessagesLabel 0)) ∧
    30 + 12 ≤ strWidth (new_message_line 30 0) :=
  ⟨⟨by decide,
    (rendered_line_width_amended 5 (asciiStr "ab") 0 30 0).1 (by decide)⟩,
   (rendered_line_width_amended 5 (asciiStr "ab") 0 30 0).2.2⟩

/-- Claim C6, counterexample: with interior width 30, no messages (so
`max_username_width = 0` and `k = 8`), a selected channel with unread
count 1 and three rendered items, the inserted divider ends in
`30 − 8 = 22` right-hand dashes, not the claimed `30 − 8 − 12 = 10`: its
content differs from the claim's formula (display width 42, not 30). -/
theorem new_messages_divider_cex :
    dividerStage (some 0) ([⟨[], [], 1, [], []⟩] : List Channel) 30
      ([[], [asciiChar 97], [asciiChar 98]] : List RStr) =
      some [[], new_message_line 30 0, [asciiChar 97], [asciiChar 98]] ∧
    new_message_line 30 0 ≠ newMessageLineClaim 30 0 ∧
    strWidth (new_message_line 30 0) = 42 ∧
    strWidth (newMessageLineClaim 30 0) = 30 := by
  decide

/-- Claim C6 (amended): for a selected channel in range, the divider is
inserted at the position equal to the unread count from the top of the
newest-first item list exactly when `0 < unread < items.length`, and its
content is `"-"*k ++ "new messages" ++ "-"*(interior − k)` — right-hand
dash count `interior − k` clamped at zero, not
`interior − k − len("new messages")` — with `k = max_username_width + 8`;
with no channel selected the items are unchanged. -/
theorem new_messages_divider_amended (idx : Nat) (channels : List Channel)
    (channel : Channel) (width : Nat) (items : List RStr)
    (hidx : channels.get? idx = some channel) :
    dividerStage (some idx) channels width items =
      (if 0 < channel.unread_messages ∧
          channel.unread_messages < items.length
       then some (items.take channel.unread_messages ++
         (List.replicate (max_username_width channel.messages + 8) dashChar ++
          asciiStr "new messages" ++
          List.replicate
            (width - (max_username_width channel.messages + 8)) dashChar) ::
         items.drop channel.unread_messages)
       else some items) ∧
    dividerStage none channels width items = some items := by
  constructor
  · have hsel : selectedMessages (some idx) channels = channel.messages := by
      unfold selectedMessages
      rw [Option.some_bind, hidx]
      rfl
    have hins : ∀ (d : RStr), insertNewMessageLine (some idx) channels d items =
        if 0 < channel.unread_messages ∧ channel.unread_messages < items.length
        then some (items.take channel.unread_messages ++
          d :: items.drop channel.unread_messages)
        else some items := by
      intro d
      simp only [insertNewMessageLine, hidx]
    unfold dividerStage
    rw [hsel, hins]
    rfl
  · rfl

/-- Witness for the amended C6 at the concrete state of the
counterexample: unread 1, three items, interior width 30. -/
theorem new_messages_divider_amended_witness :
    dividerStage (some 0) ([⟨[], [], 1, [], []⟩] : List Channel) 30
      ([[], [asciiChar 97], [asciiChar 98]] : List RStr) =
      some [[], List.replicate 8 dashChar ++ asciiStr "new messages" ++
        List.replicate 22 dashChar, [asciiChar 97], [asciiChar 98]] := by
  have h := new_messages_divider_amended 0 [⟨[], [], 1, [], []⟩]
    ⟨[], [], 1, [], []⟩ 30 [[], [asciiChar 97], [asciiChar 98]] rfl
  rw [h.1]
  decide

/-- The fold `foldr max 0` is at most `k` exactly when every element is. -/
theorem foldr_max_le_iff (l : List Nat) (k : Nat) :
    l.foldr max 0 ≤ k ↔ ∀ x ∈ l, x ≤ k := by
  induction l with
  | nil => simp
  | cons a l ih => simp [List.foldr_cons, Nat.max_le, ih]

/-- The fold `foldr max 0` is zero or attained by an element. -/
theorem foldr_max_attained (l : List Nat) :
    l.foldr max 0 = 0 ∨ ∃ x ∈ l, x = l.foldr max 0 := by
  induction l with
  | nil => exact Or.inl rfl
  | cons a l ih =>
      simp only [List.foldr_cons]
      by_cases hc : a ≤ l.foldr max 0
      · rw [Nat.max_eq_right hc]
        rcases ih with h0 | ⟨x, hx, hxe⟩
        · exact Or.inl h0
        · exact Or.inr ⟨x, List.mem_cons_of_mem a hx, hxe⟩
      · rw [Nat.max_eq_left (by omega)]
        exact Or.inr ⟨a, List.mem_cons_self a l, rfl⟩

/-- The fold `foldr max 0` is invariant under reversal. -/
theorem foldr_max_reverse (l : List Nat) :
    l.reverse.foldr max 0 = l.foldr max 0 := by
  apply Nat.le_antisymm
  · rw [foldr_max_le_iff]
    intro x hx
    exact (foldr_max_le_iff l _).mp (Nat.le_refl _) x (List.mem_reverse.mp hx)
  · rw [foldr_max_le_iff]
    intro x hx
    exact (foldr_max_le_iff l.reverse _).mp (Nat.le_refl _) x
      (List.mem_reverse.mpr hx)

/-- Claim C7, counterexample: with two messages and a pane showing only
the newest one (`max_lines = 1`), the code computes the maximum first-name
width over ALL messages of the channel (4, from the older hidden sender
"WWWW"), while the claim's maximum over the shown messages is 1 (from the
newest sender "a"). -/
theorem max_username_width_cex :
    max_username_width [⟨asciiStr "WWWW", []⟩, ⟨asciiStr "a", []⟩] = 4 ∧
    maxUsernameWidthShown [⟨asciiStr "WWWW", []⟩, ⟨asciiStr "a", []⟩] 1 = 1 ∧
    shownMessages [⟨asciiStr "WWWW", []⟩, ⟨asciiStr "a", []⟩] 1 =
      [⟨asciiStr "a", []⟩] ∧
    (4 : Nat) ≠ 1 := by
  decide

/-- Claim C7 (amended): `max_username_width` is the maximum display width
of the senders' first names (the prefix before the first space, or the
whole sender string when it has no space) over ALL messages of the
selected channel, not only the at most `max_lines` shown ones; it
coincides with the shown-only maximum whenever every message is shown. -/
theorem max_username_width_amended (messages : List Message)
    (max_lines : Nat) (name : RStr) (h : ValidStr name) :
    (∀ msg ∈ messages,
      strWidth (displayed_name msg.msgFrom true) ≤
        max_username_width messages) ∧
    (max_username_width messages = 0 ∨
      ∃ msg ∈ messages,
        strWidth (displayed_name msg.msgFrom true) =
          max_username_width messages) ∧
    (messages.length ≤ max_lines →
      maxUsernameWidthShown messages max_lines = max_username_width messages) ∧
    displayed_name name true = name.takeWhile (fun c => c.code ≠ 32) := by
  refine ⟨?_, ?_, ?_, ?_⟩
  · intro msg hmsg
    exact (foldr_max_le_iff _ _).mp (Nat.le_refl _) _
      (List.mem_map_of_mem _ hmsg)
  · rcases foldr_max_attained
        (messages.map (fun msg => strWidth (displayed_name msg.msgFrom true)))
      with h0 | ⟨x, hx, hxe⟩
    · exact Or.inl h0
    · obtain ⟨msg, hmsg, hfx⟩ := List.mem_map.mp hx
      exact Or.inr ⟨msg, hmsg, by unfold max_username_width; rw [hfx, hxe]⟩
  · intro hle
    unfold maxUsernameWidthShown max_username_width
    rw [List.take_of_length_le (by rw [List.length_reverse]; exact hle),
      List.map_reverse, foldr_max_reverse]
  · unfold displayed_name
    rw [if_pos rfl]
    exact takeBytes_spacePos name h

/-- Witness for the amended C7 at a one-message channel with sender
"John Smith": every message is shown, and the first name is the prefix
before the space. -/
theorem max_username_width_amended_witness :
    maxUsernameWidthShown [⟨asciiStr "John Smith", []⟩] 5 =
      max_username_width [⟨asciiStr "John Smith", []⟩] ∧
    displayed_name (asciiStr "John Smith") true =
      (asciiStr "John Smith").takeWhile (fun c => c.code ≠ 32) := by
  have h := max_username_width_amended [⟨asciiStr "John Smith", []⟩] 5
    (asciiStr "John Smith") (by decide)
  exact ⟨h.2.2.1 (by decide), h.2.2.2⟩

/-- Claim C8: the member pane and three-way split (ratios 1/4, 5/8, 1/8)
appear exactly when a channel is selected, its index is in range, and its
member sequence is non-empty; otherwise the screen is split two ways with
ratios 1/4 and 3/4 and no member pane is drawn. -/
theorem region_split (selected : Option Nat) (channels : List Channel) :
    (has_members selected channels = true ↔
      ∃ idx channel, selected = some idx ∧
        channels.get? idx = some channel ∧ channel.members ≠ []) ∧
    layoutRegions true = [(1, 4), (5, 8), (1, 8)] ∧
    layoutRegions false = [(1, 4), (3, 4)] ∧
    membersPaneDrawn selected channels = has_members selected channels := by
  refine ⟨?_, rfl, rfl, rfl⟩
  cases selected with
  | none =>
      constructor
      · intro hb; cases hb
      · rintro ⟨i, c, hi, _, _⟩; cases hi
  | some idx =>
      cases hg : channels.get? idx with
      | none =>
          have hhm : has_members (some idx) channels = false := by
            unfold has_members
            rw [Option.some_bind, hg]
            rfl
          rw [hhm]
          constructor
          · intro hb; cases hb
          · rintro ⟨i, c, hi, hgc, _⟩
            injection hi with hi2
            subst hi2
            rw [hg] at hgc
            cases hgc
      | some ch =>
          have hhm : has_members (some idx) channels = !ch.members.isEmpty := by
            unfold has_members
            rw [Option.some_bind, hg]
            rfl
          rw [hhm]
          constructor
          · intro hb
            refine ⟨idx, ch, rfl, hg, fun hnil => ?_⟩
            rw [hnil] at hb
            simp at hb
          · rintro ⟨i, c, hi, hgc, hne⟩
            injection hi with hi2
            subst hi2
            rw [hg] at hgc
            injection hgc with hgc2
            subst hgc2
            simp only [Bool.not_eq_true']
            cases hcm : ch.members with
            | nil => exact absurd hcm hne
            | cons a l => rfl

/-- Witness for C8 at a concrete selected channel with one member. -/
theorem region_split_witness :
    has_members (some 0)
        [(⟨[], [], 0, [], [⟨7, Role.Admin⟩]⟩ : Channel)] = true ∧
    layoutRegions true = [(1, 4), (5, 8), (1, 8)] ∧
    layoutRegions false = [(1, 4), (3, 4)] :=
  ⟨(region_split (some 0) [⟨[], [], 0, [], [⟨7, Role.Admin⟩]⟩]).1.mpr
      ⟨0, ⟨[], [], 0, [], [⟨7, Role.Admin⟩]⟩, rfl, rfl, by decide⟩,
   (region_split (some 0) [⟨[], [], 0, [], [⟨7, Role.Admin⟩]⟩]).2.1,
   (region_split (some 0) [⟨[], [], 0, [], [⟨7, Role.Admin⟩]⟩]).2.2.1⟩

/-- Claim C9: `user_color` returns the entry of the fixed 7-color palette
at index `(sum over the username's bytes of (byte mod 7)) mod 7`, and is a
pure function of the byte sequence: equal inputs give equal colors. -/
theorem user_color_formula (usernameBytes : List Nat) :
    user_color usernameBytes =
      COLORS.get ⟨(usernameBytes.map (fun b => b % 7)).sum % 7,
        Nat.mod_lt _ (by decide)⟩ ∧
    COLORS = [TuiColor.Red, TuiColor.Green, TuiColor.Yellow, TuiColor.Blue,
      TuiColor.Magenta, TuiColor.Cyan, TuiColor.Gray] ∧
    COLORS.length = 7 ∧
    ∀ other, other = usernameBytes →
      user_color other = user_color usernameBytes := by
  refine ⟨rfl, rfl, rfl, ?_⟩
  intro other hother
  rw [hother]

/-- Witness for C9 at the bytes of "alice": the formula index is 6 and
the palette entry is Gray; two calls on the same bytes agree. -/
theorem user_color_formula_witness :
    user_color [97, 108, 105, 99, 101] =
      COLORS.get ⟨([97, 108, 105, 99, 101].map (fun b => b % 7)).sum % 7,
        Nat.mod_lt _ (by decide)⟩ ∧
    user_color [97, 108, 105, 99, 101] = TuiColor.Gray ∧
    user_color [97, 108, 105, 99, 101] = user_color [97, 108, 105, 99, 101] :=
  ⟨(user_color_formula [97, 108, 105, 99, 101]).1, by decide,
   (user_color_formula [97, 108, 105, 99, 101]).2.2.2 _ rfl⟩
